import Mathlib

/-!
Verification of `scripts/analyzer.py` (Simplified Tweak Configuration
Generator).  The Python source is shallowly embedded: Python strings are
`String`, dicts become association lists (`List (String × _)`), Python sets
of identifiers become deduplicated lists, and the stateful Kahn loop of
`topological_sort` becomes a fuel-indexed recursion whose state (the
`in_degree` map, the queue and the result list) is passed explicitly.
-/

namespace Analyzer

/-! ## Utility functions (analyzer.py lines 122-131) -/

/-- Per-character ASCII lowering: the model of Python `str.lower()` as applied
by `normalize_id` (identifiers handled by the script are ASCII).  An uppercase
ASCII letter (code 65-90) is shifted by 32; every other character is kept. -/
def lowerChar (c : Char) : Char :=
  if 65 ≤ c.toNat ∧ c.toNat ≤ 90 then Char.ofNat (c.toNat + 32) else c

/-- The separators removed by `normalize_id` via
`.replace("-", "").replace("_", "").replace(".", "")`. -/
def isSep (c : Char) : Bool := c == '-' || c == '_' || c == '.'

/-- `repo.split("/")[-1]`: the (possibly empty) segment after the last `/`. -/
def lastSegment (l : List Char) : List Char :=
  (l.reverse.takeWhile (fun c => c ≠ '/')).reverse

/-- `normalize_id` (analyzer.py lines 122-126): take the segment after the
last slash, drop the separators `-`, `_`, `.`, and lowercase the rest.
Removing each separator with `str.replace` and then lowercasing is the same
as one filter pass followed by the character-wise lowering. -/
def normalize_id (repo : String) : String :=
  (((lastSegment repo.toList).filter (fun c => !(isSep c))).map lowerChar).asString

/-- `make_id` (analyzer.py lines 129-131) just delegates to `normalize_id`. -/
def make_id (repo : String) : String := normalize_id repo

/-- A character that can occur in the output of `normalize_id`: not an
uppercase ASCII letter, not a separator, not a slash. -/
def goodChar (c : Char) : Prop :=
  ¬(65 ≤ c.toNat ∧ c.toNat ≤ 90) ∧ isSep c = false ∧ c ≠ '/'

/-! ## Static configuration tables (analyzer.py lines 24-116)

Python dicts become association lists, Python sets become lists; all
identifier keys are as in the source. -/

def DEFAULT_BUILD_CMD : String := "make clean package DEBUG=0 FINALPACKAGE=1"

def KNOWN_DEPENDENCIES : List (String × List String) :=
  [("youpip", ["ytvideooverlay"]),
   ("youtimestamp", ["ytvideooverlay"]),
   ("youquality", ["ytvideooverlay"]),
   ("youmute", ["ytvideooverlay"]),
   ("youspeed", ["ytvideooverlay"])]

def HEADER_DEPENDENCIES : List (String × List String) :=
  [("ytlite", ["YouTubeHeader", "PSHeader"]),
   ("youtimestamp", ["YouTubeHeader"]),
   ("youpip", ["YouTubeHeader"]),
   ("youquality", ["YouTubeHeader"]),
   ("youmute", ["YouTubeHeader"]),
   ("youspeed", ["YouTubeHeader"]),
   ("ytvideooverlay", ["YouTubeHeader"]),
   ("returnyoutubedislikes", ["YouTubeHeader"]),
   ("ytuhd", ["YouTubeHeader"]),
   ("youtubeextensions", ["YouTubeHeader", "PSHeader"]),
   ("openyoutubesafariextension", ["YouTubeHeader"]),
   ("donteatmycontent", ["YouTubeHeader", "YTHeaders"]),
   ("ytnohovercards", ["YouTubeHeader"]),
   ("ytab", ["YouTubeHeader"]),
   ("ytnoshorts", ["YouTubeHeader"]),
   ("ytclassicvideoquality", ["YouTubeHeader"]),
   ("ytnocommunityguidelinesendscreen", ["YouTubeHeader"])]

def HEADER_REPOS : List (String × String) :=
  [("YouTubeHeader", "https://github.com/PoomSmart/YouTubeHeader.git"),
   ("PSHeader", "https://github.com/PoomSmart/PSHeader.git"),
   ("YTHeaders", "https://github.com/therealFoxster/YTHeaders.git")]

def HAS_RELEASES : List String := ["ytlite", "returnyoutubedislikes"]

def SPECIAL_BUILD_CMDS : List (String × String) :=
  [("ytuhd", "make clean package DEBUG=0 FINALPACKAGE=1 SIDELOAD=1")]

def APPEX_REPOS : List String := ["youtubeextensions", "openyoutubesafariextension"]

def SKIPPED_TWEAKS : List (String × String) :=
  [("youtimestamp", "incompatible with current YouTubeHeader (tintImage:color: and createButton:accessibilityLabel:selector: removed)")]

/-- A value of the per-tweak `DEB_FILTERS` sub-dict: the optional
`deb_filter` and `deb_exclude` keys. -/
structure DebOpts where
  deb_filter : Option String := none
  deb_exclude : Option String := none
deriving DecidableEq, Repr

def DEB_FILTERS : List (String × DebOpts) :=
  [("ytlite", { deb_filter := some "iphoneos-arm64", deb_exclude := some "roothide" }),
   ("returnyoutubedislikes", { deb_exclude := some "roothide" })]

def PRE_BUILD_CMDS : List (String × String) :=
  [("youtimestamp",
    "sed -i \x27\x27 \x27s/initYTVideoOverlay(TweakKey);/initYTVideoOverlay(TweakKey, nil);/\x27 Tweak.x")]

/-- `dict.get(key)` on an association list. -/
def lookup {α : Type} (m : List (String × α)) (k : String) : Option α :=
  (m.find? (fun p => p.1 == k)).map (fun p => p.2)

/-! ## The Configuration Record (the dict built by `analyze_tweak`)

A field of type `Option _` set to `none` models the corresponding key being
absent from the Python dict. -/

structure TweakConfig where
  id : String
  repo : String
  fetch : String
  build_cmd : Option String := none
  deb_filter : Option String := none
  deb_exclude : Option String := none
  depends_on : Option (List String) := none
  pre_build_cmd : Option String := none
  headers : Option (List String) := none
deriving DecidableEq, Repr

/-- `analyze_tweak` (analyzer.py lines 138-206).  The `all_tweaks` argument of
the Python function is never used by its body and is therefore omitted.
Python truthiness tests (`if depends_on:`, `if pre_build_cmd:`, `if headers:`,
`and deb_opts`) become emptiness tests. -/
def analyze_tweak (repo : String) : TweakConfig :=
  let tweak_id := make_id repo
  let fetch : String :=
    if tweak_id ∈ HAS_RELEASES then "release"
    else if tweak_id ∈ APPEX_REPOS then "appex"
    else "build"
  let build_cmd := (lookup SPECIAL_BUILD_CMDS tweak_id).getD DEFAULT_BUILD_CMD
  let depends_on := (lookup KNOWN_DEPENDENCIES tweak_id).getD []
  let headers := (lookup HEADER_DEPENDENCIES tweak_id).getD ["YouTubeHeader"]
  let deb_opts := (lookup DEB_FILTERS tweak_id).getD {}
  let pre_build_cmd := lookup PRE_BUILD_CMDS tweak_id
  { id := tweak_id
    repo := repo
    fetch := fetch
    build_cmd := if fetch = "build" then some build_cmd else none
    deb_filter := if fetch = "release" ∧ deb_opts ≠ {} then deb_opts.deb_filter else none
    deb_exclude := if fetch = "release" ∧ deb_opts ≠ {} then deb_opts.deb_exclude else none
    depends_on := if depends_on ≠ [] then some depends_on else none
    pre_build_cmd :=
      match pre_build_cmd with
      | some c => if c ≠ "" then some c else none
      | none => none
    headers := if headers ≠ [] then some headers else none }

/-! ## Python string comparison

`queue.sort()` and `sorted(all_ids)` order strings lexicographically by code
point.  `String.ltb` (behind Mathlib's `≤` on `String`) is defined by
well-founded recursion, so we embed the comparison structurally instead. -/

/-- Lexicographic comparison of code-point sequences (Python `a <= b`). -/
def lexLe : List Char → List Char → Bool
  | [], _ => true
  | _ :: _, [] => false
  | a :: as, b :: bs =>
    if a.toNat < b.toNat then true
    else if a.toNat = b.toNat then lexLe as bs
    else false

/-- Python string comparison `a <= b` on `String`. -/
def strLe (a b : String) : Bool := lexLe a.toList b.toList

/-- `strLe` as a relation, used with `List.insertionSort`. -/
def strOrd (a b : String) : Prop := strLe a b = true

instance : DecidableRel strOrd :=
  fun a b => inferInstanceAs (Decidable (strLe a b = true))

/-! ## Build Order Planner (`topological_sort`, analyzer.py lines 209-243)

The Python function builds `graph` (a dict from id to the *set* of its
`depends_on` entries; a later record with the same id overwrites an earlier
one), `all_ids` (a set), and runs Kahn's algorithm with a queue that is
sorted before every pop.  The mutable `in_degree` dict becomes a function
`String → Int` passed through the loop; the iteration order of the set
`all_ids` becomes an explicit list parameter `order`, and the `while` loop
becomes recursion on a fuel that starts at `order.length` (each iteration
pops exactly one node, and no node is ever enqueued twice, so the Python
loop performs at most `order.length` iterations). -/

/-- `graph[i]` = `set(cfg.get("depends_on", []))` for the *last* record whose
id is `i` (dict insertion overwrites), the empty set for ids without a
record. -/
def depsOf (configs : List TweakConfig) (i : String) : List String :=
  match configs.reverse.find? (fun c => c.id == i) with
  | some c => (c.depends_on.getD []).dedup
  | none => []

/-- The set `all_ids` as a deduplicated list. -/
def allIdsOf (configs : List TweakConfig) : List String :=
  (configs.map (fun c => c.id)).dedup

/-- The inner `for other in all_ids` loop of analyzer.py lines 233-237:
for every `other` with `node ∈ graph[other]`, decrement its in-degree and
enqueue it when the in-degree reaches 0. -/
def kahnDecrement (configs : List TweakConfig) (node : String)
    (L : List String) (st : (String → Int) × List String) :
    (String → Int) × List String :=
  L.foldl
    (fun st other =>
      if node ∈ depsOf configs other then
        let d := st.1 other - 1
        (fun j => if j = other then d else st.1 j,
         if d = 0 then st.2 ++ [other] else st.2)
      else st)
    st

/-- The `while queue:` loop of analyzer.py lines 227-237: sort the queue,
pop its head, append it to the result, run the decrement pass. -/
def kahnLoop (configs : List TweakConfig) (order : List String) :
    Nat → (String → Int) → List String → List String → List String
  | 0, _, _, result => result
  | fuel+1, indeg, queue, result =>
    match List.insertionSort strOrd queue with
    | [] => result
    | node :: rest =>
      let st := kahnDecrement configs node order (indeg, rest)
      kahnLoop configs order fuel st.1 st.2 (result ++ [node])

/-- The initial `in_degree` dict of line 221: each node maps to the number of
its (distinct) dependencies. -/
def initIndeg (configs : List TweakConfig) : String → Int :=
  fun i => ((depsOf configs i).length : Int)

/-- The initial queue of line 224: all nodes of in-degree 0, in set-iteration
order. -/
def initQueue (configs : List TweakConfig) (order : List String) : List String :=
  order.filter (fun i => initIndeg configs i == 0)

/-- The value of `result` when the `while` loop of lines 227-237 exits. -/
def kahnRun (configs : List TweakConfig) (order : List String) : List String :=
  kahnLoop configs order order.length (initIndeg configs) (initQueue configs order) []

/-- `topological_sort` with the iteration order of the set `all_ids` made
explicit.  Returns the ordering together with a flag that is `true` exactly
when the cycle warning of line 240 is printed and the lexicographic fallback
`sorted(all_ids)` of line 241 is returned. -/
def topoSortWithOrder (configs : List TweakConfig) (order : List String) :
    List String × Bool :=
  if (kahnRun configs order).length ≠ order.length then
    (List.insertionSort strOrd order, true)
  else (kahnRun configs order, false)

/-- `topological_sort` (analyzer.py lines 209-243). -/
def topological_sort (configs : List TweakConfig) : List String × Bool :=
  topoSortWithOrder configs (allIdsOf configs)

/-! ## Cycles in the dependency graph -/

/-- The edge relation of the dependency graph: `x` depends on `y`. -/
def depEdge (configs : List TweakConfig) (x y : String) : Prop :=
  y ∈ depsOf configs x

/-- `l` is a directed cycle of the dependency graph: it is nonempty and its
elements are linked by `depEdge` consecutively and around the wrap. -/
def isCycle (configs : List TweakConfig) (l : List String) : Prop :=
  l ≠ [] ∧ List.Chain' (depEdge configs) (l ++ l.take 1)

/-- The dependency graph of `configs` contains a cycle. -/
def hasCycle (configs : List TweakConfig) : Prop :=
  ∃ l, isCycle configs l

/-! ### The loop invariant of the Kahn loop -/

/-- Invariant tying the loop state (`indeg`, `queue`, `result`) of
`kahnLoop` to its meaning: `indeg i` counts the dependencies of `i` not yet
popped, the queue holds exactly the unpopped nodes all of whose dependencies
are popped, and `result` lists popped nodes after all their dependencies. -/
structure KState (configs : List TweakConfig) (order : List String)
    (indeg : String → Int) (queue result : List String) : Prop where
  res_nodup : result.Nodup
  res_sub : ∀ i ∈ result, i ∈ order
  q_nodup : queue.Nodup
  q_sub : ∀ i ∈ queue, i ∈ order
  indeg_eq : ∀ i ∈ order,
    indeg i = ((depsOf configs i).length : Int) -
      (((depsOf configs i).filter (fun d => decide (d ∈ result))).length : Int)
  q_iff : ∀ i ∈ order,
    (i ∈ queue ↔ ((∀ d ∈ depsOf configs i, d ∈ result) ∧ i ∉ result))
  res_order : ∀ i ∈ result, ∀ d ∈ depsOf configs i,
    d ∈ result ∧ result.indexOf d < result.indexOf i

/-! ### What the Kahn loop guarantees on exit -/

/-- Outcome of the Kahn loop: the final result is a duplicate-free selection
of `order` that respects all dependency edges, and every node left out has a
dependency that is also left out. -/
def KahnOutcome (configs : List TweakConfig) (order final : List String) : Prop :=
  final.Nodup ∧ (∀ i ∈ final, i ∈ order) ∧
  (∀ i ∈ final, ∀ d ∈ depsOf configs i,
    d ∈ final ∧ final.indexOf d < final.indexOf i) ∧
  (∀ u ∈ order, u ∉ final → ∃ d ∈ depsOf configs u, d ∉ final)

/-! ## Header aggregation and the pure part of `main` -/

/-- `collect_all_headers` (analyzer.py lines 246-252): the union of all
`headers` fields (a Python set, modelled as deduplication) returned in
sorted order by `sorted(...)`. -/
def collect_all_headers (configs : List TweakConfig) : List String :=
  List.insertionSort strOrd
    ((configs.flatMap (fun cfg => cfg.headers.getD [])).dedup)

/-- The `header_config` dict built by `main` (analyzer.py lines 323-326):
every collected header that has an entry in `HEADER_REPOS`, mapped to its
repository; headers without an entry are silently dropped. -/
def headerConfigOf (configs : List TweakConfig) : List (String × String) :=
  (collect_all_headers configs).filterMap
    (fun h => (lookup HEADER_REPOS h).map (fun r => (h, r)))

/-- The skip pass of `main` (analyzer.py lines 283-298): repos whose id is a
key of `SKIPPED_TWEAKS` are removed, the rest form the active tweakslist. -/
def active_tweakslist (tweakslist : List String) : List String :=
  tweakslist.filter (fun repo => (lookup SKIPPED_TWEAKS (make_id repo)).isNone)

/-- The Configuration Records produced by `main` (analyzer.py lines 304-311):
`analyze_tweak` applied to every active repo. -/
def configsOf (tweakslist : List String) : List TweakConfig :=
  (active_tweakslist tweakslist).map analyze_tweak

/-- The build order computed by `main` (analyzer.py line 316). -/
def build_orderOf (tweakslist : List String) : List String :=
  (topological_sort (configsOf tweakslist)).1

/-- The spec's three-record planner example: `a`, `b` depending on `a`, `c`
depending on `a`. -/
def exampleConfigsABC : List TweakConfig :=
  [{ id := "a", repo := "", fetch := "build" },
   { id := "b", repo := "", fetch := "build", depends_on := some ["a"] },
   { id := "c", repo := "", fetch := "build", depends_on := some ["a"] }]

/-- The spec's cyclic planner example: `x` and `y` depending on each other. -/
def exampleConfigsXY : List TweakConfig :=
  [{ id := "x", repo := "", fetch := "build", depends_on := some ["y"] },
   { id := "y", repo := "", fetch := "build", depends_on := some ["x"] }]

/-! ## Verification -/

/-! ### Character-level facts used for idempotence of `normalize_id` -/

theorem toNat_ofNat_valid {n : Nat} (h : n.isValidChar) :
    (Char.ofNat n).toNat = n := by
  rw [Char.ofNat, dif_pos h]
  rfl

theorem lowerChar_of_upper {c : Char} (h : 65 ≤ c.toNat ∧ c.toNat ≤ 90) :
    (lowerChar c).toNat = c.toNat + 32 := by
  rw [lowerChar, if_pos h]
  exact toNat_ofNat_valid (Or.inl (by omega))

theorem lowerChar_of_not_upper {c : Char} (h : ¬(65 ≤ c.toNat ∧ c.toNat ≤ 90)) :
    lowerChar c = c := by
  rw [lowerChar, if_neg h]

theorem ne_of_toNat_ne {c d : Char} (h : c.toNat ≠ d.toNat) : c ≠ d := by
  intro he
  exact h (by rw [he])

theorem goodChar_lowerChar {c : Char} (hs : isSep c = false) (hne : c ≠ '/') :
    goodChar (lowerChar c) := by
  by_cases h : 65 ≤ c.toNat ∧ c.toNat ≤ 90
  · have ht := lowerChar_of_upper h
    have e1 : ('-').toNat = 45 := rfl
    have e2 : ('_').toNat = 95 := rfl
    have e3 : ('.').toNat = 46 := rfl
    have e4 : ('/').toNat = 47 := rfl
    refine ⟨by omega, ?_, ?_⟩
    · have h1 : lowerChar c ≠ '-' := ne_of_toNat_ne (by rw [ht, e1]; omega)
      have h2 : lowerChar c ≠ '_' := ne_of_toNat_ne (by rw [ht, e2]; omega)
      have h3 : lowerChar c ≠ '.' := ne_of_toNat_ne (by rw [ht, e3]; omega)
      simp [isSep, h1, h2, h3]
    · exact ne_of_toNat_ne (by rw [ht, e4]; omega)
  · rw [lowerChar_of_not_upper h]
    exact ⟨h, hs, hne⟩

theorem mem_lastSegment_ne_slash {l : List Char} {c : Char}
    (h : c ∈ lastSegment l) : c ≠ '/' := by
  rw [lastSegment, List.mem_reverse] at h
  have := List.mem_takeWhile_imp h
  simpa using this

theorem takeWhile_eq_self_of_all {p : Char → Bool} :
    ∀ l : List Char, (∀ c ∈ l, p c = true) → l.takeWhile p = l
  | [], _ => rfl
  | c :: t, h => by
      rw [List.takeWhile_cons, h c (List.mem_cons_self c t)]
      simpa using takeWhile_eq_self_of_all t fun d hd => h d (List.mem_cons_of_mem c hd)

theorem map_eq_self_of_all {f : Char → Char} :
    ∀ l : List Char, (∀ c ∈ l, f c = c) → l.map f = l
  | [], _ => rfl
  | c :: t, h => by
      rw [List.map_cons, h c (List.mem_cons_self c t)]
      rw [map_eq_self_of_all t fun d hd => h d (List.mem_cons_of_mem c hd)]

theorem goodChar_of_mem_normalize {repo : String} {c : Char}
    (h : c ∈ (normalize_id repo).toList) : goodChar c := by
  rw [normalize_id] at h
  have h' : c ∈ ((lastSegment repo.toList).filter (fun c => !(isSep c))).map lowerChar := h
  obtain ⟨d, hd, rfl⟩ := List.mem_map.1 h'
  have hdm := List.mem_of_mem_filter hd
  have hdp := List.of_mem_filter hd
  have hsep : isSep d = false := by simpa using hdp
  exact goodChar_lowerChar hsep (mem_lastSegment_ne_slash hdm)

/-- C8 helper: `normalize_id` is the identity on strings all of whose
characters are `goodChar`. -/
theorem normalize_id_fixed {s : String} (h : ∀ c ∈ s.toList, goodChar c) :
    normalize_id s = s := by
  rw [normalize_id]
  have hseg : lastSegment s.toList = s.toList := by
    rw [lastSegment]
    rw [takeWhile_eq_self_of_all s.toList.reverse
      (fun c hc => by
        have := (h c (List.mem_reverse.1 hc)).2.2
        simpa using this)]
    exact List.reverse_reverse _
  rw [hseg]
  have hfil : s.toList.filter (fun c => !(isSep c)) = s.toList := by
    rw [List.filter_eq_self]
    intro c hc
    have := (h c hc).2.1
    simp [this]
  rw [hfil]
  rw [map_eq_self_of_all s.toList (fun c hc => lowerChar_of_not_upper (h c hc).1)]
  exact String.asString_toList s

theorem lexLe_total : ∀ as bs : List Char, lexLe as bs = true ∨ lexLe bs as = true
  | [], _ => Or.inl rfl
  | _ :: _, [] => Or.inr rfl
  | a :: as, b :: bs => by
    simp only [lexLe]
    rcases Nat.lt_trichotomy a.toNat b.toNat with h | h | h
    · left; rw [if_pos h]
    · rw [if_neg (by omega), if_pos h, if_neg (by omega), if_pos h.symm]
      exact lexLe_total as bs
    · right; rw [if_pos h]

theorem lexLe_trans : ∀ as bs cs : List Char,
    lexLe as bs = true → lexLe bs cs = true → lexLe as cs = true
  | [], _, _, _, _ => rfl
  | _ :: _, [], _, h, _ => by simp [lexLe] at h
  | _ :: _, _ :: _, [], _, h => by simp [lexLe] at h
  | a :: as, b :: bs, c :: cs, h1, h2 => by
    simp only [lexLe] at h1 h2 ⊢
    by_cases hab : a.toNat < b.toNat
    · by_cases hbc : b.toNat < c.toNat
      · rw [if_pos (by omega)]
      · rw [if_neg hbc] at h2
        by_cases hbc' : b.toNat = c.toNat
        · rw [if_pos (by omega)]
        · rw [if_neg hbc'] at h2; exact absurd h2 (by simp)
    · rw [if_neg hab] at h1
      by_cases hab' : a.toNat = b.toNat
      · rw [if_pos hab'] at h1
        by_cases hbc : b.toNat < c.toNat
        · rw [if_pos (by omega)]
        · rw [if_neg hbc] at h2
          by_cases hbc' : b.toNat = c.toNat
          · rw [if_pos hbc'] at h2
            rw [if_neg (by omega), if_pos (by omega)]
            exact lexLe_trans as bs cs h1 h2
          · rw [if_neg hbc'] at h2; exact absurd h2 (by simp)
      · rw [if_neg hab'] at h1; exact absurd h1 (by simp)

theorem char_eq_of_toNat_eq {a b : Char} (h : a.toNat = b.toNat) : a = b := by
  exact Char.eq_of_val_eq (UInt32.ext h)

theorem lexLe_antisymm : ∀ as bs : List Char,
    lexLe as bs = true → lexLe bs as = true → as = bs
  | [], [], _, _ => rfl
  | [], _ :: _, _, h => by simp [lexLe] at h
  | _ :: _, [], h, _ => by simp [lexLe] at h
  | a :: as, b :: bs, h1, h2 => by
    simp only [lexLe] at h1 h2
    by_cases hab : a.toNat < b.toNat
    · rw [if_neg (by omega), if_neg (by omega)] at h2
      exact absurd h2 (by simp)
    · rw [if_neg hab] at h1
      by_cases hab' : a.toNat = b.toNat
      · rw [if_pos hab'] at h1
        rw [if_neg (by omega), if_pos (by omega)] at h2
        rw [char_eq_of_toNat_eq hab', lexLe_antisymm as bs h1 h2]
      · rw [if_neg hab'] at h1; exact absurd h1 (by simp)

example :
    topological_sort
      [{ id := "a", repo := "", fetch := "build" },
       { id := "b", repo := "", fetch := "build", depends_on := some ["a"] },
       { id := "c", repo := "", fetch := "build", depends_on := some ["a"] }] =
    (["a", "b", "c"], false) := by decide

example :
    topological_sort
      [{ id := "x", repo := "", fetch := "build", depends_on := some ["y"] },
       { id := "y", repo := "", fetch := "build", depends_on := some ["x"] }] =
    (["x", "y"], true) := by decide

/-! ### Basic facts about the dependency graph -/

theorem depsOf_nodup (configs : List TweakConfig) (i : String) :
    (depsOf configs i).Nodup := by
  rw [depsOf]
  cases configs.reverse.find? (fun c => c.id == i) with
  | none => simp
  | some c => exact List.nodup_dedup _

theorem mem_allIds_of_depsOf_ne_nil {configs : List TweakConfig} {i : String}
    (h : depsOf configs i ≠ []) : i ∈ allIdsOf configs := by
  rw [depsOf] at h
  cases hf : configs.reverse.find? (fun c => c.id == i) with
  | none => rw [hf] at h; simp at h
  | some c =>
    have hc : c ∈ configs.reverse := List.mem_of_find?_eq_some hf
    have hid : c.id = i := by simpa using List.find?_some hf
    rw [allIdsOf, List.mem_dedup]
    rw [List.mem_reverse] at hc
    exact hid ▸ List.mem_map_of_mem (fun c => c.id) hc

theorem allIds_nodup (configs : List TweakConfig) : (allIdsOf configs).Nodup :=
  List.nodup_dedup _

/-! ### Closed form of the decrement pass -/

theorem kahnDecrement_cons (configs : List TweakConfig) (node a : String)
    (t : List String) (st : (String → Int) × List String) :
    kahnDecrement configs node (a :: t) st =
      kahnDecrement configs node t
        (if node ∈ depsOf configs a then
          (fun j => if j = a then st.1 a - 1 else st.1 j,
           if st.1 a - 1 = 0 then st.2 ++ [a] else st.2)
         else st) := rfl

theorem kahnDecrement_fst (configs : List TweakConfig) (node : String) :
    ∀ (L : List String), L.Nodup → ∀ (indeg : String → Int) (q : List String)
      (j : String),
      (kahnDecrement configs node L (indeg, q)).1 j =
        if j ∈ L ∧ node ∈ depsOf configs j then indeg j - 1 else indeg j
  | [], _, indeg, q, j => by simp [kahnDecrement]
  | a :: t, hnd, indeg, q, j => by
    have hat : a ∉ t := (List.nodup_cons.1 hnd).1
    have hnt : t.Nodup := (List.nodup_cons.1 hnd).2
    rw [kahnDecrement_cons]
    by_cases hna : node ∈ depsOf configs a
    · rw [if_pos hna]
      rw [kahnDecrement_fst configs node t hnt]
      by_cases hja : j = a
      · subst hja
        simp [hat, hna]
      · by_cases hjt : j ∈ t
        · by_cases hnj : node ∈ depsOf configs j
          · simp [hja, hjt, hnj]
          · simp [hja, hjt, hnj]
        · simp [hja, hjt]
    · rw [if_neg hna]
      rw [kahnDecrement_fst configs node t hnt]
      by_cases hja : j = a
      · subst hja
        simp [hat, hna]
      · by_cases hjt : j ∈ t
        · by_cases hnj : node ∈ depsOf configs j
          · simp [hja, hjt, hnj]
          · simp [hja, hjt, hnj]
        · simp [hja, hjt]

theorem kahnDecrement_snd (configs : List TweakConfig) (node : String) :
    ∀ (L : List String), L.Nodup → ∀ (indeg : String → Int) (q : List String),
      (kahnDecrement configs node L (indeg, q)).2 =
        q ++ L.filter (fun o => decide (node ∈ depsOf configs o ∧ indeg o = 1))
  | [], _, indeg, q => by simp [kahnDecrement]
  | a :: t, hnd, indeg, q => by
    have hat : a ∉ t := (List.nodup_cons.1 hnd).1
    have hnt : t.Nodup := (List.nodup_cons.1 hnd).2
    rw [kahnDecrement_cons]
    by_cases hna : node ∈ depsOf configs a
    · rw [if_pos hna]
      rw [kahnDecrement_snd configs node t hnt]
      have hcong : t.filter (fun o => decide (node ∈ depsOf configs o ∧
            (fun j => if j = a then indeg a - 1 else indeg j) o = 1)) =
          t.filter (fun o => decide (node ∈ depsOf configs o ∧ indeg o = 1)) := by
        apply List.filter_congr
        intro o ho
        have hoa : o ≠ a := fun he => hat (he ▸ ho)
        simp [hoa]
      rw [hcong, List.filter_cons]
      by_cases hq : indeg a - 1 = 0
      · rw [if_pos hq]
        have hd : decide (node ∈ depsOf configs a ∧ indeg a = 1) = true := by
          rw [decide_eq_true_eq]
          exact ⟨hna, by omega⟩
        rw [hd]
        simp
      · rw [if_neg hq]
        have hd : decide (node ∈ depsOf configs a ∧ indeg a = 1) = false := by
          rw [decide_eq_false_iff_not]
          intro hc
          exact hq (by omega)
        rw [hd]
        simp
    · rw [if_neg hna]
      rw [kahnDecrement_snd configs node t hnt, List.filter_cons]
      have hd : decide (node ∈ depsOf configs a ∧ indeg a = 1) = false := by
        rw [decide_eq_false_iff_not]
        exact fun hc => hna hc.1
      rw [hd]
      simp

/-! ### Counting popped dependencies -/

theorem length_filter_append_singleton {deps result : List String} {node : String}
    (hnd : deps.Nodup) (hnr : node ∉ result) :
    (deps.filter (fun d => decide (d ∈ result ++ [node]))).length =
      (deps.filter (fun d => decide (d ∈ result))).length +
        (if node ∈ deps then 1 else 0) := by
  induction deps with
  | nil => simp
  | cons a t ih =>
    have hat : a ∉ t := (List.nodup_cons.1 hnd).1
    have iht := ih (List.nodup_cons.1 hnd).2
    rw [List.filter_cons, List.filter_cons]
    by_cases han : a = node
    · subst han
      have h1 : decide (a ∈ result ++ [a]) = true := by simp
      have h2 : ¬ decide (a ∈ result) = true := by simp [hnr]
      rw [if_pos h1, if_neg h2, List.length_cons, iht,
        if_pos (List.mem_cons_self a t), if_neg hat]
    · have hna : node ≠ a := fun h => han h.symm
      by_cases har : a ∈ result
      · have h1 : decide (a ∈ result ++ [node]) = true := by simp [har]
        have h2 : decide (a ∈ result) = true := by simp [har]
        rw [if_pos h1, if_pos h2, List.length_cons, List.length_cons, iht]
        by_cases hn2 : node ∈ t
        · rw [if_pos hn2, if_pos (List.mem_cons_of_mem a hn2)]
        · rw [if_neg hn2, if_neg (by simp [hna, hn2])]
      · have h1 : ¬ decide (a ∈ result ++ [node]) = true := by simp [har, han]
        have h2 : ¬ decide (a ∈ result) = true := by simp [har]
        rw [if_neg h1, if_neg h2, iht]
        by_cases hn2 : node ∈ t
        · rw [if_pos hn2, if_pos (List.mem_cons_of_mem a hn2)]
        · rw [if_neg hn2, if_neg (by simp [hna, hn2])]

theorem all_mem_iff_filter_length {deps result : List String} :
    (∀ d ∈ deps, d ∈ result) ↔
      (deps.filter (fun d => decide (d ∈ result))).length = deps.length := by
  rw [List.filter_length_eq_length]
  simp

theorem KState_init (configs : List TweakConfig) (order : List String)
    (hord : order.Nodup) :
    KState configs order (initIndeg configs) (initQueue configs order) [] where
  res_nodup := List.nodup_nil
  res_sub := by simp
  q_nodup := hord.filter _
  q_sub := fun i hi => List.mem_of_mem_filter hi
  indeg_eq := by
    intro i _
    simp [initIndeg]
  q_iff := by
    intro i hi
    constructor
    · intro hq
      have hz : ((depsOf configs i).length : Int) = 0 := by
        have := List.of_mem_filter hq
        simpa [initIndeg] using this
      have hnil : depsOf configs i = [] := by
        rw [← List.length_eq_zero]
        exact_mod_cast hz
      refine ⟨?_, by simp⟩
      intro d hd
      rw [hnil] at hd
      simp at hd
    · rintro ⟨hall, -⟩
      have hnil : depsOf configs i = [] := by
        cases hdeps : depsOf configs i with
        | nil => rfl
        | cons d t =>
          have := hall d (by rw [hdeps]; exact List.mem_cons_self d t)
          simp at this
      apply List.mem_filter.2
      refine ⟨hi, ?_⟩
      simp [initIndeg, hnil]
  res_order := by simp

/-- One iteration of the Kahn loop preserves the invariant: popping the head
`node` of the sorted queue and running the decrement pass moves the state to
a valid state for `result ++ [node]`. -/
theorem KState.step {configs : List TweakConfig} {order : List String}
    (hord : order.Nodup) {indeg : String → Int} {queue result : List String}
    (ks : KState configs order indeg queue result)
    {node : String} {rest : List String}
    (hsort : List.insertionSort strOrd queue = node :: rest) :
    KState configs order
      (kahnDecrement configs node order (indeg, rest)).1
      (kahnDecrement configs node order (indeg, rest)).2
      (result ++ [node]) := by
  have hqperm : (node :: rest).Perm queue :=
    hsort ▸ List.perm_insertionSort strOrd queue
  have hnr_nodup : (node :: rest).Nodup := hqperm.nodup_iff.2 ks.q_nodup
  have hnode_q : node ∈ queue := hqperm.subset (List.mem_cons_self node rest)
  have hrest_q : ∀ i ∈ rest, i ∈ queue :=
    fun i hi => hqperm.subset (List.mem_cons_of_mem node hi)
  have hnode_rest : node ∉ rest := (List.nodup_cons.1 hnr_nodup).1
  have hrest_nodup : rest.Nodup := (List.nodup_cons.1 hnr_nodup).2
  have hnode_ord : node ∈ order := ks.q_sub node hnode_q
  have hnode_all : ∀ d ∈ depsOf configs node, d ∈ result :=
    ((ks.q_iff node hnode_ord).1 hnode_q).1
  have hnode_res : node ∉ result := ((ks.q_iff node hnode_ord).1 hnode_q).2
  have hfst : ∀ j, (kahnDecrement configs node order (indeg, rest)).1 j =
      if j ∈ order ∧ node ∈ depsOf configs j then indeg j - 1 else indeg j :=
    kahnDecrement_fst configs node order hord indeg rest
  have hsnd : (kahnDecrement configs node order (indeg, rest)).2 =
      rest ++ order.filter (fun o => decide (node ∈ depsOf configs o ∧ indeg o = 1)) :=
    kahnDecrement_snd configs node order hord indeg rest
  have hq_indeg : ∀ i ∈ queue, indeg i = 0 := by
    intro i hi
    have hio := ks.q_sub i hi
    have hall := ((ks.q_iff i hio).1 hi).1
    have hlen := (all_mem_iff_filter_length).1 hall
    rw [ks.indeg_eq i hio, hlen]
    omega
  have hres_indeg : ∀ i ∈ result, i ∈ order → indeg i = 0 := by
    intro i hi hio
    have hall : ∀ d ∈ depsOf configs i, d ∈ result :=
      fun d hd => (ks.res_order i hi d hd).1
    rw [ks.indeg_eq i hio, (all_mem_iff_filter_length).1 hall]
    omega
  have hFmem : ∀ o,
      o ∈ order.filter (fun o => decide (node ∈ depsOf configs o ∧ indeg o = 1)) →
      o ∈ order ∧ node ∈ depsOf configs o ∧ indeg o = 1 := by
    intro o ho
    have h1 := List.mem_of_mem_filter ho
    have h2 := List.of_mem_filter ho
    rw [decide_eq_true_eq] at h2
    exact ⟨h1, h2.1, h2.2⟩
  have hF_not_res : ∀ o,
      o ∈ order.filter (fun o => decide (node ∈ depsOf configs o ∧ indeg o = 1)) →
      o ∉ result := by
    intro o ho hr
    obtain ⟨h1, h2, h3⟩ := hFmem o ho
    have := hres_indeg o hr h1
    omega
  have hF_not_q : ∀ o,
      o ∈ order.filter (fun o => decide (node ∈ depsOf configs o ∧ indeg o = 1)) →
      o ∉ queue := by
    intro o ho hq
    obtain ⟨h1, h2, h3⟩ := hFmem o ho
    have := hq_indeg o hq
    omega
  have hF_ne_node : ∀ o,
      o ∈ order.filter (fun o => decide (node ∈ depsOf configs o ∧ indeg o = 1)) →
      o ≠ node :=
    fun o ho he => hF_not_q o ho (he ▸ hnode_q)
  have hF_not_rest : ∀ o,
      o ∈ order.filter (fun o => decide (node ∈ depsOf configs o ∧ indeg o = 1)) →
      o ∉ rest :=
    fun o ho hr => hF_not_q o ho (hrest_q o hr)
  constructor
  · -- res_nodup
    rw [List.nodup_append]
    exact ⟨ks.res_nodup, List.nodup_singleton node,
      fun a ha hb => hnode_res ((List.mem_singleton.1 hb) ▸ ha)⟩
  · -- res_sub
    intro i hi
    rcases List.mem_append.1 hi with h | h
    · exact ks.res_sub i h
    · rw [List.mem_singleton.1 h]
      exact hnode_ord
  · -- q_nodup
    rw [hsnd, List.nodup_append]
    exact ⟨hrest_nodup, hord.filter _, fun a ha hb => hF_not_rest a hb ha⟩
  · -- q_sub
    intro i hi
    rw [hsnd] at hi
    rcases List.mem_append.1 hi with h | h
    · exact ks.q_sub i (hrest_q i h)
    · exact List.mem_of_mem_filter h
  · -- indeg_eq
    intro i hio
    rw [hfst i]
    by_cases hni : node ∈ depsOf configs i
    · rw [if_pos ⟨hio, hni⟩, ks.indeg_eq i hio,
        length_filter_append_singleton (depsOf_nodup configs i) hnode_res,
        if_pos hni]
      push_cast
      omega
    · rw [if_neg (fun hc => hni hc.2), ks.indeg_eq i hio,
        length_filter_append_singleton (depsOf_nodup configs i) hnode_res,
        if_neg hni]
      push_cast
      omega
  · -- q_iff
    intro i hio
    rw [hsnd]
    constructor
    · intro hi
      rcases List.mem_append.1 hi with h | h
      · have hiq := hrest_q i h
        have hall := ((ks.q_iff i hio).1 hiq).1
        have hires := ((ks.q_iff i hio).1 hiq).2
        have hine : i ≠ node := fun he => hnode_rest (he ▸ h)
        refine ⟨fun d hd => List.mem_append.2 (Or.inl (hall d hd)), ?_⟩
        intro hmem
        rcases List.mem_append.1 hmem with h' | h'
        · exact hires h'
        · exact hine (List.mem_singleton.1 h')
      · obtain ⟨h1, h2, h3⟩ := hFmem i h
        have hlen' : ((depsOf configs i).filter
            (fun d => decide (d ∈ result ++ [node]))).length =
            (depsOf configs i).length := by
          rw [length_filter_append_singleton (depsOf_nodup configs i) hnode_res,
            if_pos h2]
          have := ks.indeg_eq i hio
          have hle := List.length_filter_le (fun d => decide (d ∈ result))
            (depsOf configs i)
          omega
        refine ⟨(all_mem_iff_filter_length).2 hlen', ?_⟩
        intro hmem
        rcases List.mem_append.1 hmem with h' | h'
        · exact hF_not_res i h h'
        · exact hF_ne_node i h (List.mem_singleton.1 h')
    · rintro ⟨hall, hnotin⟩
      have hires : i ∉ result := fun hc => hnotin (List.mem_append.2 (Or.inl hc))
      have hine : i ≠ node := fun hc =>
        hnotin (List.mem_append.2 (Or.inr (by rw [hc]; exact List.mem_singleton_self node)))
      by_cases hprev : ∀ d ∈ depsOf configs i, d ∈ result
      · have hiq : i ∈ queue := (ks.q_iff i hio).2 ⟨hprev, hires⟩
        have hmem : i ∈ node :: rest := hqperm.symm.subset hiq
        rcases List.mem_cons.1 hmem with h' | h'
        · exact absurd h' hine
        · exact List.mem_append.2 (Or.inl h')
      · push_neg at hprev
        obtain ⟨d0, hd0, hd0r⟩ := hprev
        have hd0n : d0 = node := by
          rcases List.mem_append.1 (hall d0 hd0) with h' | h'
          · exact absurd h' hd0r
          · exact List.mem_singleton.1 h'
        subst hd0n
        have hcnt : ((depsOf configs i).filter
            (fun d => decide (d ∈ result ++ [d0]))).length =
            (depsOf configs i).length := (all_mem_iff_filter_length).1 hall
        have hcnt2 := length_filter_append_singleton
          (depsOf_nodup configs i) hnode_res
        rw [if_pos hd0] at hcnt2
        have h1 : indeg i = 1 := by
          have := ks.indeg_eq i hio
          rw [hcnt2] at hcnt
          omega
        apply List.mem_append.2
        right
        apply List.mem_filter.2
        refine ⟨hio, ?_⟩
        rw [decide_eq_true_eq]
        exact ⟨hd0, h1⟩
  · -- res_order
    intro i hi d hd
    rcases List.mem_append.1 hi with h | h
    · obtain ⟨hdr, hlt⟩ := ks.res_order i h d hd
      refine ⟨List.mem_append.2 (Or.inl hdr), ?_⟩
      rw [List.indexOf_append_of_mem hdr, List.indexOf_append_of_mem h]
      exact hlt
    · have hi_node : i = node := List.mem_singleton.1 h
      subst hi_node
      have hdr := hnode_all d hd
      refine ⟨List.mem_append.2 (Or.inl hdr), ?_⟩
      rw [List.indexOf_append_of_mem hdr, List.indexOf_append_of_not_mem hnode_res]
      have hlt : result.indexOf d < result.length := List.indexOf_lt_length.2 hdr
      simpa using hlt

theorem kahnLoop_spec {configs : List TweakConfig} {order : List String}
    (hord : order.Nodup) :
    ∀ (fuel : Nat) (indeg : String → Int) (queue result : List String),
      KState configs order indeg queue result →
      fuel + result.length = order.length →
      KahnOutcome configs order (kahnLoop configs order fuel indeg queue result)
  | 0, indeg, queue, result, ks, hfuel => by
    rw [kahnLoop]
    have hperm : result.Perm order :=
      (List.subperm_of_subset ks.res_nodup ks.res_sub).perm_of_length_le (by omega)
    refine ⟨ks.res_nodup, ks.res_sub, ks.res_order, ?_⟩
    intro u hu hnu
    exact absurd (hperm.mem_iff.2 hu) hnu
  | fuel+1, indeg, queue, result, ks, hfuel => by
    cases hs : List.insertionSort strOrd queue with
    | nil =>
      have hloop : kahnLoop configs order (fuel+1) indeg queue result = result := by
        rw [kahnLoop, hs]
      rw [hloop]
      have hq : queue = [] :=
        List.Perm.eq_nil (by rw [← hs]; exact (List.perm_insertionSort strOrd queue).symm)
      refine ⟨ks.res_nodup, ks.res_sub, ks.res_order, ?_⟩
      intro u hu hnu
      by_contra hcon
      push_neg at hcon
      have huq : u ∈ queue := (ks.q_iff u hu).2 ⟨hcon, hnu⟩
      rw [hq] at huq
      simp at huq
    | cons node rest =>
      have hloop : kahnLoop configs order (fuel+1) indeg queue result =
          kahnLoop configs order fuel
            (kahnDecrement configs node order (indeg, rest)).1
            (kahnDecrement configs node order (indeg, rest)).2
            (result ++ [node]) := by
        rw [kahnLoop, hs]
      rw [hloop]
      exact kahnLoop_spec hord fuel _ _ _ (ks.step hord hs)
        (by simp only [List.length_append, List.length_singleton] at hfuel ⊢; omega)

theorem kahnRun_outcome (configs : List TweakConfig) (order : List String)
    (hord : order.Nodup) : KahnOutcome configs order (kahnRun configs order) := by
  rw [kahnRun]
  exact kahnLoop_spec hord order.length _ _ _ (KState_init configs order hord) (by simp)

theorem kahnRun_perm {configs : List TweakConfig} {order : List String}
    (hord : order.Nodup)
    (hlen : (kahnRun configs order).length = order.length) :
    (kahnRun configs order).Perm order := by
  obtain ⟨h1, h2, h3, h4⟩ := kahnRun_outcome configs order hord
  exact (List.subperm_of_subset h1 h2).perm_of_length_le (by omega)

/-! ### Building a cycle out of a stuck configuration -/

theorem cycle_extend {configs : List TweakConfig} {p : List String} {a d : String}
    (hchain : List.Chain' (depEdge configs) (p ++ [a]))
    (hd : depEdge configs a d) (hdp : d ∈ p ++ [a]) : hasCycle configs := by
  obtain ⟨pre, suf, hsplit⟩ := List.append_of_mem hdp
  have hsuffix : List.Chain' (depEdge configs) (d :: suf) :=
    (hsplit ▸ hchain).right_of_append
  have hlast : (d :: suf).getLast? = some a := by
    have h1 : (p ++ [a]).getLast? = some a := List.getLast?_concat p
    rw [hsplit, List.getLast?_append_of_ne_nil pre (by simp)] at h1
    exact h1
  refine ⟨d :: suf, by simp, ?_⟩
  have htake : (d :: suf).take 1 = [d] := by simp
  rw [htake]
  rw [List.chain'_append]
  refine ⟨hsuffix, List.chain'_singleton d, ?_⟩
  intro x hx y hy
  rw [hlast] at hx
  simp only [Option.mem_def, Option.some_inj] at hx
  simp only [List.head?_cons, Option.mem_def, Option.some_inj] at hy
  subst hx
  subst hy
  exact hd

theorem stuck_extend {configs : List TweakConfig} {U : List String}
    (hstep : ∀ u ∈ U, ∃ d ∈ depsOf configs u, d ∈ U) :
    ∀ (fuel : Nat) (p : List String) (a : String),
      a ∈ U → (∀ x ∈ p, x ∈ U) → (p ++ [a]).Nodup →
      List.Chain' (depEdge configs) (p ++ [a]) →
      U.length ≤ fuel + (p ++ [a]).length →
      hasCycle configs := by
  intro fuel
  induction fuel with
  | zero =>
    intro p a haU hpU hnd hchain hbound
    obtain ⟨d, hdd, hdU⟩ := hstep a haU
    by_cases hdp : d ∈ p ++ [a]
    · exact cycle_extend hchain hdd hdp
    · exfalso
      have hsub : ∀ x ∈ (p ++ [a]) ++ [d], x ∈ U := by
        intro x hx
        rcases List.mem_append.1 hx with h | h
        · rcases List.mem_append.1 h with h' | h'
          · exact hpU x h'
          · rw [List.mem_singleton.1 h']; exact haU
        · rw [List.mem_singleton.1 h]; exact hdU
      have hnd2 : ((p ++ [a]) ++ [d]).Nodup := by
        rw [List.nodup_append]
        exact ⟨hnd, List.nodup_singleton d,
          fun x hx hx' => hdp ((List.mem_singleton.1 hx') ▸ hx)⟩
      have hle := (List.subperm_of_subset hnd2 hsub).length_le
      simp only [List.length_append, List.length_singleton] at hle hbound
      omega
  | succ fuel ih =>
    intro p a haU hpU hnd hchain hbound
    obtain ⟨d, hdd, hdU⟩ := hstep a haU
    by_cases hdp : d ∈ p ++ [a]
    · exact cycle_extend hchain hdd hdp
    · apply ih (p ++ [a]) d hdU
      · intro x hx
        rcases List.mem_append.1 hx with h | h
        · exact hpU x h
        · rw [List.mem_singleton.1 h]; exact haU
      · rw [List.nodup_append]
        exact ⟨hnd, List.nodup_singleton d,
          fun x hx hx' => hdp ((List.mem_singleton.1 hx') ▸ hx)⟩
      · rw [List.chain'_append]
        refine ⟨hchain, List.chain'_singleton d, ?_⟩
        intro x hx y hy
        rw [List.getLast?_concat] at hx
        simp only [Option.mem_def, Option.some_inj] at hx
        simp only [List.head?_cons, Option.mem_def, Option.some_inj] at hy
        subst hx
        subst hy
        exact hdd
      · simp only [List.length_append, List.length_singleton] at hbound ⊢
        omega

/-- If every node of a nonempty set has a dependency inside the set, the
dependency graph has a cycle. -/
theorem hasCycle_of_all_stuck {configs : List TweakConfig} {U : List String}
    (hne : U ≠ []) (hstep : ∀ u ∈ U, ∃ d ∈ depsOf configs u, d ∈ U) :
    hasCycle configs := by
  obtain ⟨u, hu⟩ := List.exists_mem_of_length_pos (List.length_pos.2 hne)
  exact stuck_extend hstep U.length [] u hu (by simp) (by simp)
    (List.chain'_singleton u) (by simp)

/-- Every node of a cycle has a dependency that is again on the cycle. -/
theorem cycle_succ {configs : List TweakConfig} {l : List String}
    (hc : isCycle configs l) : ∀ x ∈ l, ∃ y ∈ l, depEdge configs x y := by
  obtain ⟨hne, hchain⟩ := hc
  intro x hx
  obtain ⟨⟨k, hk⟩, hget⟩ := List.mem_iff_get.1 hx
  have hpos : 1 ≤ l.length := List.length_pos.2 hne
  have hlen1 : (l.take 1).length = 1 := by
    rw [List.length_take]
    omega
  have hmlen : (l ++ l.take 1).length = l.length + 1 := by
    rw [List.length_append, hlen1]
  rw [List.chain'_iff_get] at hchain
  have hrel := hchain k (by omega)
  have hgx : (l ++ l.take 1).get ⟨k, by omega⟩ = x := by
    rw [List.get_append k hk]
    exact hget
  refine ⟨(l ++ l.take 1).get ⟨k + 1, by omega⟩, ?_, ?_⟩
  · have hmem := List.get_mem (l ++ l.take 1) (k + 1) (by omega)
    rcases List.mem_append.1 hmem with h | h
    · exact h
    · exact List.take_subset 1 l h
  · rw [← hgx]
    exact hrel

/-! ### Sorting with `strOrd` -/

theorem insertionSort_eq_of_perm {l1 l2 : List String} (h : l1.Perm l2) :
    List.insertionSort strOrd l1 = List.insertionSort strOrd l2 := by
  haveI : IsTotal String strOrd := ⟨fun a b => lexLe_total a.toList b.toList⟩
  haveI : IsTrans String strOrd :=
    ⟨fun a b c => lexLe_trans a.toList b.toList c.toList⟩
  haveI : IsAntisymm String strOrd :=
    ⟨fun a b ha hb => String.toList_inj.1 (lexLe_antisymm a.toList b.toList ha hb)⟩
  exact List.eq_of_perm_of_sorted
    ((List.perm_insertionSort strOrd l1).trans
      (h.trans (List.perm_insertionSort strOrd l2).symm))
    (List.sorted_insertionSort strOrd l1)
    (List.sorted_insertionSort strOrd l2)

theorem sorted_strOrd_insertionSort (l : List String) :
    List.Sorted strOrd (List.insertionSort strOrd l) := by
  haveI : IsTotal String strOrd := ⟨fun a b => lexLe_total a.toList b.toList⟩
  haveI : IsTrans String strOrd :=
    ⟨fun a b c => lexLe_trans a.toList b.toList c.toList⟩
  exact List.sorted_insertionSort strOrd l

/-! ### The planner's output does not depend on the set-iteration order -/

theorem kahnDecrement_congr {configs : List TweakConfig} {o1 o2 : List String}
    (h12 : o1.Perm o2) (h1 : o1.Nodup) (node : String) (indeg : String → Int)
    (rest : List String) :
    (kahnDecrement configs node o1 (indeg, rest)).1 =
      (kahnDecrement configs node o2 (indeg, rest)).1 ∧
    (kahnDecrement configs node o1 (indeg, rest)).2.Perm
      (kahnDecrement configs node o2 (indeg, rest)).2 := by
  have h2 : o2.Nodup := h12.nodup_iff.1 h1
  constructor
  · funext j
    rw [kahnDecrement_fst configs node o1 h1, kahnDecrement_fst configs node o2 h2]
    by_cases hj : j ∈ o1 ∧ node ∈ depsOf configs j
    · rw [if_pos hj, if_pos ⟨h12.subset hj.1, hj.2⟩]
    · rw [if_neg hj, if_neg (fun hc => hj ⟨h12.symm.subset hc.1, hc.2⟩)]
  · rw [kahnDecrement_snd configs node o1 h1, kahnDecrement_snd configs node o2 h2]
    exact List.Perm.append_left rest (h12.filter _)

theorem kahnLoop_congr {configs : List TweakConfig} {o1 o2 : List String}
    (h12 : o1.Perm o2) (h1 : o1.Nodup) :
    ∀ (fuel : Nat) (indeg : String → Int) (q1 q2 result : List String),
      q1.Perm q2 →
      kahnLoop configs o1 fuel indeg q1 result =
        kahnLoop configs o2 fuel indeg q2 result
  | 0, indeg, q1, q2, result, hq => by rw [kahnLoop, kahnLoop]
  | fuel+1, indeg, q1, q2, result, hq => by
    have hsorteq : List.insertionSort strOrd q1 = List.insertionSort strOrd q2 :=
      insertionSort_eq_of_perm hq
    cases hs : List.insertionSort strOrd q2 with
    | nil =>
      have e1 : kahnLoop configs o1 (fuel+1) indeg q1 result = result := by
        rw [kahnLoop, hsorteq, hs]
      have e2 : kahnLoop configs o2 (fuel+1) indeg q2 result = result := by
        rw [kahnLoop, hs]
      rw [e1, e2]
    | cons node rest =>
      have e1 : kahnLoop configs o1 (fuel+1) indeg q1 result =
          kahnLoop configs o1 fuel
            (kahnDecrement configs node o1 (indeg, rest)).1
            (kahnDecrement configs node o1 (indeg, rest)).2
            (result ++ [node]) := by
        rw [kahnLoop, hsorteq, hs]
      have e2 : kahnLoop configs o2 (fuel+1) indeg q2 result =
          kahnLoop configs o2 fuel
            (kahnDecrement configs node o2 (indeg, rest)).1
            (kahnDecrement configs node o2 (indeg, rest)).2
            (result ++ [node]) := by
        rw [kahnLoop, hs]
      rw [e1, e2]
      obtain ⟨hfst, hsnd⟩ := kahnDecrement_congr h12 h1 node indeg rest
      rw [hfst]
      exact kahnLoop_congr h12 h1 fuel
        (kahnDecrement configs node o2 (indeg, rest)).1
        (kahnDecrement configs node o1 (indeg, rest)).2
        (kahnDecrement configs node o2 (indeg, rest)).2
        (result ++ [node]) hsnd

theorem topoSortWithOrder_congr (configs : List TweakConfig) {o1 o2 : List String}
    (h12 : o1.Perm o2) (h1 : o1.Nodup) :
    topoSortWithOrder configs o1 = topoSortWithOrder configs o2 := by
  have hrun : kahnRun configs o1 = kahnRun configs o2 := by
    rw [kahnRun, kahnRun, h12.length_eq]
    exact kahnLoop_congr h12 h1 o2.length (initIndeg configs)
      (initQueue configs o1) (initQueue configs o2) [] (h12.filter _)
  rw [topoSortWithOrder, topoSortWithOrder, hrun, h12.length_eq,
    insertionSort_eq_of_perm h12]

/-! ### The two branches of `topological_sort` -/

theorem topological_sort_eq_of_complete {configs : List TweakConfig}
    (h : (kahnRun configs (allIdsOf configs)).length = (allIdsOf configs).length) :
    topological_sort configs = (kahnRun configs (allIdsOf configs), false) := by
  rw [topological_sort, topoSortWithOrder, if_neg (fun hc => hc h)]

theorem topological_sort_eq_of_incomplete {configs : List TweakConfig}
    (h : (kahnRun configs (allIdsOf configs)).length ≠ (allIdsOf configs).length) :
    topological_sort configs =
      (List.insertionSort strOrd (allIdsOf configs), true) := by
  rw [topological_sort, topoSortWithOrder, if_pos h]

theorem topo_perm_allIds (configs : List TweakConfig) :
    (topological_sort configs).1.Perm (allIdsOf configs) := by
  by_cases h : (kahnRun configs (allIdsOf configs)).length = (allIdsOf configs).length
  · rw [topological_sort_eq_of_complete h]
    exact kahnRun_perm (allIds_nodup configs) h
  · rw [topological_sort_eq_of_incomplete h]
    exact List.perm_insertionSort strOrd _

/-! ### Relating `depsOf` to the records -/

theorem depsOf_subset_record {configs : List TweakConfig} {i d : String}
    (hd : d ∈ depsOf configs i) :
    ∃ c ∈ configs, c.id = i ∧ d ∈ c.depends_on.getD [] := by
  rw [depsOf] at hd
  cases hf : configs.reverse.find? (fun c => c.id == i) with
  | none => rw [hf] at hd; simp at hd
  | some c =>
    rw [hf] at hd
    have hc : c ∈ configs.reverse := List.mem_of_find?_eq_some hf
    have hid : c.id = i := by simpa using List.find?_some hf
    exact ⟨c, List.mem_reverse.1 hc, hid, List.mem_dedup.1 hd⟩

theorem depsOf_eq_of_nodup {configs : List TweakConfig}
    (hids : (configs.map (fun c => c.id)).Nodup) {c : TweakConfig}
    (hc : c ∈ configs) :
    depsOf configs c.id = (c.depends_on.getD []).dedup := by
  rw [depsOf]
  cases hf : configs.reverse.find? (fun p => p.id == c.id) with
  | none =>
    exfalso
    have := List.find?_eq_none.1 hf c (List.mem_reverse.2 hc)
    simp at this
  | some c' =>
    have hc' : c' ∈ configs := List.mem_reverse.1 (List.mem_of_find?_eq_some hf)
    have hid : c'.id = c.id := by simpa using List.find?_some hf
    have heq : c' = c := List.inj_on_of_nodup_map hids hc' hc hid
    rw [heq]

/-! ### Completeness and incompleteness of the Kahn run -/

theorem kahnRun_complete_of_acyclic {configs : List TweakConfig}
    (hclosed : ∀ i d, d ∈ depsOf configs i → d ∈ allIdsOf configs)
    (hacyc : ¬ hasCycle configs) :
    (kahnRun configs (allIdsOf configs)).length = (allIdsOf configs).length := by
  by_contra hlen
  obtain ⟨hnodup, hsub, hord, hstuck⟩ :=
    kahnRun_outcome configs (allIdsOf configs) (allIds_nodup configs)
  have hUne : (allIdsOf configs).filter
      (fun u => decide (u ∉ kahnRun configs (allIdsOf configs))) ≠ [] := by
    intro hU
    have hallin : ∀ u ∈ allIdsOf configs, u ∈ kahnRun configs (allIdsOf configs) := by
      intro u hu
      by_contra hnu
      have hmem : u ∈ (allIdsOf configs).filter
          (fun u => decide (u ∉ kahnRun configs (allIdsOf configs))) :=
        List.mem_filter.2 ⟨hu, by simpa using hnu⟩
      rw [hU] at hmem
      simp at hmem
    have h1 := (List.subperm_of_subset (allIds_nodup configs) hallin).length_le
    have h2 := (List.subperm_of_subset hnodup hsub).length_le
    omega
  have hstep : ∀ u ∈ (allIdsOf configs).filter
      (fun u => decide (u ∉ kahnRun configs (allIdsOf configs))),
      ∃ d ∈ depsOf configs u,
        d ∈ (allIdsOf configs).filter
          (fun u => decide (u ∉ kahnRun configs (allIdsOf configs))) := by
    intro u hu
    have hu1 := List.mem_of_mem_filter hu
    have hu2 : u ∉ kahnRun configs (allIdsOf configs) := by
      simpa using List.of_mem_filter hu
    obtain ⟨d, hd, hdnf⟩ := hstuck u hu1 hu2
    exact ⟨d, hd, List.mem_filter.2 ⟨hclosed u d hd, by simpa using hdnf⟩⟩
  exact hacyc (hasCycle_of_all_stuck hUne hstep)

theorem kahnRun_incomplete_of_cycle {configs : List TweakConfig}
    (hcyc : hasCycle configs) :
    (kahnRun configs (allIdsOf configs)).length ≠ (allIdsOf configs).length := by
  intro hlen
  obtain ⟨l, hl⟩ := hcyc
  have hperm := kahnRun_perm (allIds_nodup configs) hlen
  obtain ⟨hnodup, hsub, hord, hstuck⟩ :=
    kahnRun_outcome configs (allIdsOf configs) (allIds_nodup configs)
  have hlf : ∀ x ∈ l, x ∈ kahnRun configs (allIdsOf configs) := by
    intro x hx
    obtain ⟨y, hy, hxy⟩ := cycle_succ hl x hx
    have hxa : x ∈ allIdsOf configs :=
      mem_allIds_of_depsOf_ne_nil (List.ne_nil_of_mem hxy)
    exact hperm.mem_iff.2 hxa
  have key : ∀ n, ∀ x ∈ l, (kahnRun configs (allIdsOf configs)).indexOf x = n → False := by
    intro n
    induction n using Nat.strong_induction_on with
    | _ n ihn =>
      intro x hx hxn
      obtain ⟨y, hy, hxy⟩ := cycle_succ hl x hx
      obtain ⟨hyf, hlt⟩ := hord x (hlf x hx) y hxy
      exact ihn _ (hxn ▸ hlt) y hy rfl
  obtain ⟨x, hx⟩ := List.exists_mem_of_length_pos (List.length_pos.2 hl.1)
  exact key _ x hx rfl

/-- If a rank function strictly decreases along every dependency edge, the
dependency graph is acyclic. -/
theorem acyclic_of_rank {configs : List TweakConfig} (rank : String → Nat)
    (hrank : ∀ x y, depEdge configs x y → rank y < rank x) :
    ¬ hasCycle configs := by
  rintro ⟨l, hl⟩
  have key : ∀ n, ∀ x ∈ l, rank x = n → False := by
    intro n
    induction n using Nat.strong_induction_on with
    | _ n ihn =>
      intro x hx hxn
      obtain ⟨y, hy, hxy⟩ := cycle_succ hl x hx
      exact ihn (rank y) (hxn ▸ hrank x y hxy) y hy rfl
  obtain ⟨x, hx⟩ := List.exists_mem_of_length_pos (List.length_pos.2 hl.1)
  exact key (rank x) x hx rfl

/-! ## The claims about the Build Order Planner -/

/-- C1: for every set of Configuration Records (one record per identifier,
with a well-formed dependency graph: every `depends_on` entry is a record
identifier) that is acyclic, the ordering returned by `topological_sort`
contains every record's identifier and places every identifier strictly
after every identifier in its `depends_on` list. -/
theorem C1_acyclic_planner_correct (configs : List TweakConfig)
    (hids : (configs.map (fun c => c.id)).Nodup)
    (hclosed : ∀ c ∈ configs, ∀ d ∈ c.depends_on.getD [], d ∈ allIdsOf configs)
    (hacyc : ¬ hasCycle configs) :
    (∀ c ∈ configs, c.id ∈ (topological_sort configs).1) ∧
    (∀ c ∈ configs, ∀ d ∈ c.depends_on.getD [],
      d ∈ (topological_sort configs).1 ∧
      (topological_sort configs).1.indexOf d <
        (topological_sort configs).1.indexOf c.id) := by
  have hclosed' : ∀ i d, d ∈ depsOf configs i → d ∈ allIdsOf configs := by
    intro i d hd
    obtain ⟨c, hc, -, hcd⟩ := depsOf_subset_record hd
    exact hclosed c hc d hcd
  have hcompl := kahnRun_complete_of_acyclic hclosed' hacyc
  obtain ⟨hnodup, hsub, hord, hstuck⟩ :=
    kahnRun_outcome configs (allIdsOf configs) (allIds_nodup configs)
  have hperm := kahnRun_perm (allIds_nodup configs) hcompl
  rw [topological_sort_eq_of_complete hcompl]
  constructor
  · intro c hc
    exact hperm.mem_iff.2 (List.mem_dedup.2 (List.mem_map_of_mem (fun c => c.id) hc))
  · intro c hc d hd
    have hd' : d ∈ depsOf configs c.id := by
      rw [depsOf_eq_of_nodup hids hc]
      exact List.mem_dedup.2 hd
    have hcid : c.id ∈ kahnRun configs (allIdsOf configs) :=
      hperm.mem_iff.2 (List.mem_dedup.2 (List.mem_map_of_mem (fun c => c.id) hc))
    exact hord c.id hcid d hd'

/-- C1 witness: the spec's three-record example `a`, `b`→`a`, `c`→`a`
satisfies the hypotheses of `C1_acyclic_planner_correct`, and its conclusion
holds for it. -/
theorem C1_acyclic_planner_correct_witness :
    ((exampleConfigsABC.map (fun c => c.id)).Nodup ∧
     (∀ c ∈ exampleConfigsABC, ∀ d ∈ c.depends_on.getD [],
       d ∈ allIdsOf exampleConfigsABC) ∧
     ¬ hasCycle exampleConfigsABC) ∧
    ((∀ c ∈ exampleConfigsABC, c.id ∈ (topological_sort exampleConfigsABC).1) ∧
     (∀ c ∈ exampleConfigsABC, ∀ d ∈ c.depends_on.getD [],
       d ∈ (topological_sort exampleConfigsABC).1 ∧
       (topological_sort exampleConfigsABC).1.indexOf d <
         (topological_sort exampleConfigsABC).1.indexOf c.id)) := by
  have hacyc : ¬ hasCycle exampleConfigsABC := by
    apply acyclic_of_rank (fun i => if i = "a" then 0 else 1)
    intro x y hxy
    have hx : x ∈ allIdsOf exampleConfigsABC :=
      mem_allIds_of_depsOf_ne_nil (List.ne_nil_of_mem hxy)
    have hids : allIdsOf exampleConfigsABC = ["a", "b", "c"] := by decide
    rw [hids] at hx
    simp only [List.mem_cons, List.not_mem_nil, or_false] at hx
    rcases hx with rfl | rfl | rfl
    · have hda : depsOf exampleConfigsABC "a" = [] := by decide
      rw [depEdge, hda] at hxy
      simp at hxy
    · have hdb : depsOf exampleConfigsABC "b" = ["a"] := by decide
      rw [depEdge, hdb] at hxy
      simp only [List.mem_singleton] at hxy
      subst hxy
      decide
    · have hdc : depsOf exampleConfigsABC "c" = ["a"] := by decide
      rw [depEdge, hdc] at hxy
      simp only [List.mem_singleton] at hxy
      subst hxy
      decide
  exact ⟨⟨by decide, by decide, hacyc⟩,
    C1_acyclic_planner_correct exampleConfigsABC (by decide) (by decide) hacyc⟩

/-- C2: whenever the dependency graph of the records contains a cycle, the
planner signals the cycle warning and still returns an ordering, namely the
lexicographically sorted list of all record identifiers. -/
theorem C2_cycle_fallback (configs : List TweakConfig)
    (hcyc : hasCycle configs) :
    (topological_sort configs).2 = true ∧
    (topological_sort configs).1.Perm (allIdsOf configs) ∧
    List.Sorted strOrd (topological_sort configs).1 := by
  have hincomp := kahnRun_incomplete_of_cycle hcyc
  rw [topological_sort_eq_of_incomplete hincomp]
  exact ⟨rfl, List.perm_insertionSort strOrd _, sorted_strOrd_insertionSort _⟩

/-- The list `["x", "y"]` is a cycle of the spec's two-record cycle example. -/
theorem exampleXY_isCycle : isCycle exampleConfigsXY ["x", "y"] := by
  refine ⟨by decide, ?_⟩
  show List.Chain' (depEdge exampleConfigsXY) ["x", "y", "x"]
  have h1 : depEdge exampleConfigsXY "x" "y" := by rw [depEdge]; decide
  have h2 : depEdge exampleConfigsXY "y" "x" := by rw [depEdge]; decide
  exact List.chain'_cons.2 ⟨h1, List.chain'_cons.2 ⟨h2, List.chain'_singleton "x"⟩⟩

/-- C2 witness: the spec's two-record cycle `x`↔`y` has a cycle, and on it
the planner warns and returns the sorted identifier list. -/
theorem C2_cycle_fallback_witness :
    hasCycle exampleConfigsXY ∧
    ((topological_sort exampleConfigsXY).2 = true ∧
     (topological_sort exampleConfigsXY).1.Perm (allIdsOf exampleConfigsXY) ∧
     List.Sorted strOrd (topological_sort exampleConfigsXY).1) :=
  ⟨⟨["x", "y"], exampleXY_isCycle⟩,
    C2_cycle_fallback exampleConfigsXY ⟨["x", "y"], exampleXY_isCycle⟩⟩

/-- C3: the planner's result is independent of the iteration order of the
set `all_ids` (Python's only source of run-to-run nondeterminism here):
running the loop with any permutation of the identifier set as iteration
order produces exactly the output of `topological_sort`. -/
theorem C3_planner_deterministic (configs : List TweakConfig)
    (order : List String) (h : order.Perm (allIdsOf configs)) :
    topoSortWithOrder configs order = topological_sort configs := by
  rw [topological_sort]
  exact topoSortWithOrder_congr configs h (h.nodup_iff.2 (allIds_nodup configs))

/-- C3 witness: iterating the identifier set of the three-record example in
the order `["c", "a", "b"]` yields the same output as `topological_sort`. -/
theorem C3_planner_deterministic_witness :
    (["c", "a", "b"] : List String).Perm (allIdsOf exampleConfigsABC) ∧
    topoSortWithOrder exampleConfigsABC ["c", "a", "b"] =
      topological_sort exampleConfigsABC :=
  ⟨by decide, C3_planner_deterministic exampleConfigsABC ["c", "a", "b"] (by decide)⟩

/-- C9: for every set of Configuration Records — including ones whose
`depends_on` lists mention identifiers that are not among the records — the
planner's output is duplicate-free, contains every record's identifier, and
is a permutation of the identifier set, in both the success branch and the
cycle-fallback branch. -/
theorem C9_output_is_permutation (configs : List TweakConfig) :
    (topological_sort configs).1.Nodup ∧
    (∀ c ∈ configs, c.id ∈ (topological_sort configs).1) ∧
    (topological_sort configs).1.Perm (allIdsOf configs) := by
  have hperm := topo_perm_allIds configs
  refine ⟨hperm.nodup_iff.2 (allIds_nodup configs), ?_, hperm⟩
  intro c hc
  exact hperm.mem_iff.2 (List.mem_dedup.2 (List.mem_map_of_mem (fun c => c.id) hc))

/-! ## The claims about the Metadata Resolver and `main` -/

/-- C4: an identifier absent from every lookup table consulted by
`analyze_tweak` resolves — without any error, `analyze_tweak` being total —
to the all-defaults record: fetch `"build"`, the default build command,
headers `["YouTubeHeader"]`, and no `depends_on`, `deb_filter`,
`deb_exclude` or `pre_build_cmd` key present. -/
theorem C4_unknown_identifier_defaults (repo : String)
    (h1 : make_id repo ∉ HAS_RELEASES)
    (h2 : make_id repo ∉ APPEX_REPOS)
    (h3 : lookup SPECIAL_BUILD_CMDS (make_id repo) = none)
    (h4 : lookup KNOWN_DEPENDENCIES (make_id repo) = none)
    (h5 : lookup HEADER_DEPENDENCIES (make_id repo) = none)
    (h6 : lookup DEB_FILTERS (make_id repo) = none)
    (h7 : lookup PRE_BUILD_CMDS (make_id repo) = none) :
    analyze_tweak repo =
      { id := make_id repo, repo := repo, fetch := "build",
        build_cmd := some DEFAULT_BUILD_CMD,
        headers := some ["YouTubeHeader"] } := by
  simp [analyze_tweak, h1, h2, h3, h4, h5, h6, h7]

/-- C4 witness: `Someone/Unknown-Tweak` normalizes to `unknowntweak`, which
is absent from every table, and resolves to the all-defaults record. -/
theorem C4_unknown_identifier_defaults_witness :
    (make_id "Someone/Unknown-Tweak" ∉ HAS_RELEASES ∧
     make_id "Someone/Unknown-Tweak" ∉ APPEX_REPOS ∧
     lookup SPECIAL_BUILD_CMDS (make_id "Someone/Unknown-Tweak") = none ∧
     lookup KNOWN_DEPENDENCIES (make_id "Someone/Unknown-Tweak") = none ∧
     lookup HEADER_DEPENDENCIES (make_id "Someone/Unknown-Tweak") = none ∧
     lookup DEB_FILTERS (make_id "Someone/Unknown-Tweak") = none ∧
     lookup PRE_BUILD_CMDS (make_id "Someone/Unknown-Tweak") = none) ∧
    analyze_tweak "Someone/Unknown-Tweak" =
      { id := make_id "Someone/Unknown-Tweak", repo := "Someone/Unknown-Tweak",
        fetch := "build", build_cmd := some DEFAULT_BUILD_CMD,
        headers := some ["YouTubeHeader"] } :=
  ⟨⟨by decide, by decide, by decide, by decide, by decide, by decide, by decide⟩,
    C4_unknown_identifier_defaults "Someone/Unknown-Tweak"
      (by decide) (by decide) (by decide) (by decide) (by decide) (by decide)
      (by decide)⟩

/-- C6: the `deb_filter` and `deb_exclude` fields appear in a Configuration
Record only when the resolved fetch method is `"release"`: for every
identifier whose fetch method resolves to `"build"` or `"appex"` both fields
are absent, even when a `DEB_FILTERS` entry exists for that identifier. -/
theorem C6_deb_fields_only_for_release (repo : String)
    (h : (analyze_tweak repo).fetch ≠ "release") :
    (analyze_tweak repo).deb_filter = none ∧
    (analyze_tweak repo).deb_exclude = none := by
  by_cases hrel : make_id repo ∈ HAS_RELEASES
  · exfalso
    apply h
    simp [analyze_tweak, hrel]
  · by_cases hax : make_id repo ∈ APPEX_REPOS
    · constructor <;> simp [analyze_tweak, hrel, hax]
    · constructor <;> simp [analyze_tweak, hrel, hax]

/-- C6 witness: `PoomSmart/YouPiP` resolves to fetch method `"build"` and
carries no deb filter fields. -/
theorem C6_deb_fields_only_for_release_witness :
    (analyze_tweak "PoomSmart/YouPiP").fetch ≠ "release" ∧
    ((analyze_tweak "PoomSmart/YouPiP").deb_filter = none ∧
     (analyze_tweak "PoomSmart/YouPiP").deb_exclude = none) :=
  ⟨by decide, C6_deb_fields_only_for_release "PoomSmart/YouPiP" (by decide)⟩

/-- C10: a Configuration Record contains the `build_cmd` key exactly when
its resolved fetch method is `"build"`; `"release"` and `"appex"` records
never carry it, whatever the override tables contain. -/
theorem C10_build_cmd_iff_fetch_build (repo : String) :
    (analyze_tweak repo).build_cmd.isSome = true ↔
      (analyze_tweak repo).fetch = "build" := by
  by_cases hrel : make_id repo ∈ HAS_RELEASES
  · simp [analyze_tweak, hrel]
  · by_cases hax : make_id repo ∈ APPEX_REPOS
    · simp [analyze_tweak, hrel, hax]
    · simp [analyze_tweak, hrel, hax]

/-- C5: identifiers with a `SKIPPED_TWEAKS` entry are removed before
resolution: no repo of the active tweakslist has a skipped identifier, no
produced Configuration Record carries a skipped identifier, and no skipped
identifier occurs in the build order. -/
theorem C5_skipped_never_in_output (tweakslist : List String) :
    (∀ repo ∈ active_tweakslist tweakslist,
      lookup SKIPPED_TWEAKS (make_id repo) = none) ∧
    (∀ cfg ∈ configsOf tweakslist, lookup SKIPPED_TWEAKS cfg.id = none) ∧
    (∀ i ∈ build_orderOf tweakslist, lookup SKIPPED_TWEAKS i = none) := by
  have hact : ∀ repo ∈ active_tweakslist tweakslist,
      lookup SKIPPED_TWEAKS (make_id repo) = none := by
    intro repo hr
    have hp := List.of_mem_filter hr
    simpa [Option.isNone_iff_eq_none] using hp
  refine ⟨hact, ?_, ?_⟩
  · intro cfg hcfg
    obtain ⟨repo, hrepo, rfl⟩ := List.mem_map.1 hcfg
    exact hact repo hrepo
  · intro i hi
    rw [build_orderOf] at hi
    have hperm := topo_perm_allIds (configsOf tweakslist)
    have hia : i ∈ allIdsOf (configsOf tweakslist) := hperm.subset hi
    rw [allIdsOf] at hia
    obtain ⟨cfg, hcfg, rfl⟩ := List.mem_map.1 (List.mem_dedup.1 hia)
    obtain ⟨repo, hrepo, rfl⟩ := List.mem_map.1 hcfg
    exact hact repo hrepo

/-- C7: the Header Aggregator returns the lexicographically sorted,
duplicate-free union of all `headers` fields, and the resolved
header-to-location mapping holds exactly the collected headers that occur in
the static registry `HEADER_REPOS`, each mapped to its registry entry —
headers absent from the registry are omitted without error. -/
theorem C7_header_aggregation (configs : List TweakConfig) :
    List.Sorted strOrd (collect_all_headers configs) ∧
    (collect_all_headers configs).Nodup ∧
    (∀ h, h ∈ collect_all_headers configs ↔
      ∃ cfg ∈ configs, h ∈ cfg.headers.getD []) ∧
    (∀ h r, (h, r) ∈ headerConfigOf configs ↔
      (h ∈ collect_all_headers configs ∧ lookup HEADER_REPOS h = some r)) := by
  refine ⟨sorted_strOrd_insertionSort _, ?_, ?_, ?_⟩
  · exact (List.perm_insertionSort strOrd _).nodup_iff.2 (List.nodup_dedup _)
  · intro h
    rw [collect_all_headers, (List.perm_insertionSort strOrd _).mem_iff,
      List.mem_dedup, List.mem_flatMap]
  · intro h r
    rw [headerConfigOf, List.mem_filterMap]
    constructor
    · rintro ⟨h', hh', hf⟩
      cases hl : lookup HEADER_REPOS h' with
      | none => rw [hl] at hf; simp at hf
      | some r' =>
        rw [hl] at hf
        simp only [Option.map_some', Option.some.injEq, Prod.mk.injEq] at hf
        obtain ⟨rfl, rfl⟩ := hf
        exact ⟨hh', hl⟩
    · rintro ⟨hh, hl⟩
      refine ⟨h, hh, ?_⟩
      rw [hl]
      rfl

/-- C8: identifier normalization is idempotent: `normalize_id` applied to an
already-normalized reference returns it unchanged. -/
theorem C8_normalize_id_idempotent (repo : String) :
    normalize_id (normalize_id repo) = normalize_id repo :=
  normalize_id_fixed (fun _ hc => goodChar_of_mem_normalize hc)

end Analyzer
